import Mathlib

/-!
Verification of the DBLP graph-building pipeline (`pipeline.py`).

The pipeline turns a bibliographic dataset (papers, authors, venues,
citation references) into derived graph artifacts: a directed paper
citation graph, an undirected author co-citation graph, its largest
connected component (LCC), venue-derived ground-truth communities, and
tool-specific format conversions.

The embedding models the igraph library's behaviour as used by the code:
a graph is a list of vertex names (vertex `i` is the `i`-th name) plus a
list of edges between vertex indices.  Python dictionaries built by
comprehension are modelled by `pydict` (later bindings override earlier
ones), and Python loops that can raise `KeyError` are modelled by
`Option`-valued functions (`mapOrFail`).
-/

namespace Aminer

/-- Python dict built from an association list of (key, value) pairs by
successive assignment: a later binding of a key overrides an earlier one,
and lookup of an absent key is `none` (a `KeyError` in Python). -/
def pydict {α β : Type} [BEq α] (pairs : List (α × β)) (k : α) : Option β :=
  (pairs.reverse.find? (fun p => p.1 == k)).map (fun p => p.2)

/-- A Python loop that applies `f` to every list element in order and
raises (`none`) as soon as one application fails; otherwise it returns
the list of results.  Used to model loops containing an unguarded
`idmap[key]` subscript, which raises `KeyError` on a missing key. -/
def mapOrFail {α β : Type} (f : α → Option β) : List α → Option (List β)
  | [] => some []
  | x :: xs =>
    match f x, mapOrFail f xs with
    | some y, some ys => some (y :: ys)
    | _, _ => none

/-- Model of an igraph graph as used by the pipeline: `names` lists the
vertex names in vertex-index order (`graph.vs[i]['name'] = names[i]`),
and `edges` is the edge list over vertex indices.  Parallel edges and
self-loops are representable, as in igraph. -/
structure Graph where
  names : List String
  edges : List (Nat × Nat)
deriving DecidableEq

/-- Enumeration of a graph's vertices as (name, index) pairs, in vertex
order — the iteration order of `graph.vs` in the comprehension
`{v['name']: v.index for v in graph.vs}`. -/
def idmapPairs (g : Graph) : List (String × Nat) :=
  g.names.enum.map (fun p => (p.2, p.1))

/-- The identifier map of a graph: the dict `{v['name']: v.index for v in
graph.vs}`, built in `save_id_map` and for the paper graph inline. -/
def Graph.idmap (g : Graph) : String → Option Nat :=
  pydict (idmapPairs g)

theorem mem_idmapPairs {g : Graph} {s : String} {i : Nat} :
    (s, i) ∈ idmapPairs g ↔ g.names.get? i = some s := by
  unfold idmapPairs
  rw [List.mem_map]
  constructor
  · rintro ⟨p, hp, hps⟩
    obtain ⟨h2, h1⟩ := Prod.mk.injEq _ _ _ _ ▸ hps
    have : p = (i, s) := by
      cases p; simp only [Prod.mk.injEq]; exact ⟨h1 ▸ rfl, h2 ▸ rfl⟩
    rw [this] at hp
    exact List.mem_enum_iff_get?.mp hp
  · intro h
    exact ⟨(i, s), List.mem_enum_iff_get?.mpr h, rfl⟩

theorem idmap_eq_some {g : Graph} {s : String} {i : Nat}
    (h : g.idmap s = some i) : g.names.get? i = some s := by
  unfold Graph.idmap pydict at h
  rw [Option.map_eq_some'] at h
  obtain ⟨p, hfind, hp2⟩ := h
  have hpmem : p ∈ idmapPairs g := List.mem_reverse.mp (List.mem_of_find?_eq_some hfind)
  have hpeq := List.find?_some hfind
  have h1 : p.1 = s := eq_of_beq hpeq
  have : p = (s, i) := by
    cases p; simp only [Prod.mk.injEq]; exact ⟨h1, hp2⟩
  rw [this] at hpmem
  exact mem_idmapPairs.mp hpmem

theorem idmap_isSome_of_mem {g : Graph} {s : String} (h : s ∈ g.names) :
    (g.idmap s).isSome := by
  obtain ⟨i, hi⟩ := List.mem_iff_get?.mp h
  unfold Graph.idmap pydict
  rw [Option.isSome_map']
  rw [List.find?_isSome]
  refine ⟨(s, i), List.mem_reverse.mpr (mem_idmapPairs.mpr hi), ?_⟩
  exact beq_self_eq_true s

theorem idmap_get_self {g : Graph} (h : g.names.Nodup) {i : Nat}
    (hi : i < g.names.length) :
    g.idmap (g.names.get ⟨i, hi⟩) = some i := by
  have hmem : g.names.get ⟨i, hi⟩ ∈ g.names := List.get_mem g.names i hi
  have hsome := idmap_isSome_of_mem hmem
  obtain ⟨j, hj⟩ := Option.isSome_iff_exists.mp hsome
  have hj2 : g.names.get? j = some (g.names.get ⟨i, hi⟩) := idmap_eq_some hj
  have hij : i = j := by
    apply List.getElem?_inj hi h
    rw [← List.get?_eq_getElem?, ← List.get?_eq_getElem?, hj2, List.get?_eq_get hi]
  subst hij
  exact hj

/-- Bijectivity of a graph's identifier map: every vertex name is mapped,
all images lie in `{0 .. |V|-1}`, every index in that range is hit by a
vertex name, and no two names share an index. -/
def IdmapBijective (g : Graph) : Prop :=
  (∀ s ∈ g.names, ∃ i, g.idmap s = some i) ∧
  (∀ s i, g.idmap s = some i → i < g.names.length ∧ s ∈ g.names) ∧
  (∀ i, i < g.names.length → ∃ s ∈ g.names, g.idmap s = some i) ∧
  (∀ s t i, g.idmap s = some i → g.idmap t = some i → s = t)

theorem idmap_bij_aux (g : Graph) (h : g.names.Nodup) : IdmapBijective g := by
  refine ⟨?_, ?_, ?_, ?_⟩
  · intro s hs
    exact Option.isSome_iff_exists.mp (idmap_isSome_of_mem hs)
  · intro s i hi
    have h2 := idmap_eq_some hi
    have hlt : i < g.names.length := by
      by_contra hge
      rw [List.get?_eq_none.mpr (Nat.le_of_not_lt hge)] at h2
      exact Option.noConfusion h2
    refine ⟨hlt, ?_⟩
    rw [List.get?_eq_get hlt] at h2
    have h3 : g.names.get ⟨i, hlt⟩ = s := Option.some.inj h2
    rw [← h3]
    exact List.get_mem g.names i hlt
  · intro i hi
    refine ⟨g.names.get ⟨i, hi⟩, List.get_mem g.names i hi, idmap_get_self h hi⟩
  · intro s t i hs ht
    have h1 := idmap_eq_some hs
    have h2 := idmap_eq_some ht
    rw [h2] at h1
    exact (Option.some.inj h1).symm

/-- C3. Identifier map bijectivity: for every graph whose vertex names are
distinct (as holds for each graph the pipeline builds: the paper graph,
the full author graph and the LCC author graph each use a distinct id
column as names, and a separate map is computed from each graph's own
vertex list), the map `{v['name']: v.index for v in graph.vs}` is a
bijection between the graph's vertex domain-ids and `{0 .. |V(G)|-1}`. -/
theorem idmap_bijective (g : Graph) (h : g.names.Nodup) : IdmapBijective g :=
  idmap_bij_aux g h

/-- Witness for C3 at a concrete three-vertex graph. -/
theorem idmap_bijective_witness :
    (["p1", "p2", "p3"] : List String).Nodup ∧
      IdmapBijective (Graph.mk ["p1", "p2", "p3"] [(0, 1)]) :=
  ⟨by decide, idmap_bijective (Graph.mk ["p1", "p2", "p3"] [(0, 1)]) (by decide)⟩

/-- The `iteredges` generator of the paper-graph stage: for each reference
row `(paper_id, ref_id)` it yields the index pair
`(idmap[paper_id], idmap[ref_id])`, and the `try ... except: pass` skips
any row for which either subscript raises `KeyError`. -/
def iteredges (idmap : String → Option Nat) (rows : List (String × String)) :
    List (Nat × Nat) :=
  rows.filterMap (fun r =>
    match idmap r.1, idmap r.2 with
    | some a, some b => some (a, b)
    | _, _ => none)

/-- The Dataset Filter stage's restriction of the reference table:
`refs_df[(refs_df['paper_id'].isin(paper_ids)) & (refs_df['ref_id'].isin(paper_ids))]`. -/
def filterRefs (paper_ids : List String) (refs : List (String × String)) :
    List (String × String) :=
  refs.filter (fun r => paper_ids.contains r.1 && paper_ids.contains r.2)

/-- The paper citation graph stage: one vertex per paper id in file order
(`refg.add_vertices(paper_ids)`), then `refg.add_edges(iteredges(reader))`
through the identifier map of the vertex-only graph. -/
def buildPaperGraph (papers : List String) (refs : List (String × String)) : Graph :=
  Graph.mk papers (iteredges (Graph.idmap (Graph.mk papers [])) refs)

/-- C4. Reference-edge filtering: a directed edge `(a, b)` is added to the
paper citation graph exactly when some reference row has both endpoints in
the identifier map, mapping to `a` and `b`; every row with an endpoint
outside the map is silently skipped (the function is total — no error is
raised), so it contributes no edge. -/
theorem edge_of_row_eq_some {pm : String → Option Nat} {r : String × String}
    {e : Nat × Nat} :
    (match pm r.1, pm r.2 with
      | some a, some b => some ((a, b) : Nat × Nat)
      | _, _ => none) = some e ↔ pm r.1 = some e.1 ∧ pm r.2 = some e.2 := by
  cases h1 : pm r.1 <;> cases h2 : pm r.2 <;> simp [Prod.ext_iff]

theorem reference_edge_filter (idmap : String → Option Nat)
    (rows : List (String × String)) (e : Nat × Nat) :
    e ∈ iteredges idmap rows ↔
      ∃ r ∈ rows, idmap r.1 = some e.1 ∧ idmap r.2 = some e.2 := by
  rw [iteredges, List.mem_filterMap]
  constructor
  · rintro ⟨r, hr, hf⟩
    exact ⟨r, hr, edge_of_row_eq_some.mp hf⟩
  · rintro ⟨r, hr, h12⟩
    exact ⟨r, hr, edge_of_row_eq_some.mpr h12⟩

theorem length_filterMap_of_isSome {α β : Type} (f : α → Option β) (l : List α)
    (h : ∀ x ∈ l, (f x).isSome) : (l.filterMap f).length = l.length := by
  induction l with
  | nil => rfl
  | cons x xs ih =>
    have hx := h x (List.mem_cons_self x xs)
    obtain ⟨y, hy⟩ := Option.isSome_iff_exists.mp hx
    rw [List.filterMap_cons, hy, List.length_cons]
    rw [ih (fun a ha => h a (List.mem_cons_of_mem x ha))]
    rfl

theorem mem_of_contains {α : Type} [BEq α] [LawfulBEq α] {l : List α} {s : α}
    (h : l.contains s = true) : s ∈ l := by
  rcases List.mem_of_elem_eq_true h with h2
  exact h2

/-- C9. On the pipeline's own filtered input, the silent-discard branch of
reference-edge construction is unreachable: every row of the filtered
reference table (both endpoints `isin` the unique filtered paper ids) has
both endpoints in the paper identifier map, and consequently the paper
citation graph has exactly one edge per filtered reference row. -/
theorem filtered_refs_all_become_edges (papers : List String)
    (refs : List (String × String)) :
    (∀ r ∈ filterRefs papers.dedup refs,
        ((Graph.mk papers []).idmap r.1).isSome ∧
          ((Graph.mk papers []).idmap r.2).isSome) ∧
      (buildPaperGraph papers (filterRefs papers.dedup refs)).edges.length =
        (filterRefs papers.dedup refs).length := by
  have hmem : ∀ r ∈ filterRefs papers.dedup refs,
      ((Graph.mk papers []).idmap r.1).isSome ∧
        ((Graph.mk papers []).idmap r.2).isSome := by
    intro r hr
    rw [filterRefs, List.mem_filter] at hr
    obtain ⟨-, hp⟩ := hr
    rw [Bool.and_eq_true] at hp
    obtain ⟨hp1, hp2⟩ := hp
    constructor
    · exact idmap_isSome_of_mem (List.mem_dedup.mp (mem_of_contains hp1))
    · exact idmap_isSome_of_mem (List.mem_dedup.mp (mem_of_contains hp2))
  refine ⟨hmem, ?_⟩
  unfold buildPaperGraph iteredges
  apply length_filterMap_of_isSome
  intro r hr
  obtain ⟨h1, h2⟩ := hmem r hr
  obtain ⟨a, ha⟩ := Option.isSome_iff_exists.mp h1
  obtain ⟨b, hb⟩ := Option.isSome_iff_exists.mp h2
  rw [ha, hb]
  rfl

/-- Undirected neighborhood `node.neighbors()` of vertex `i` in an igraph
graph: the opposite endpoint of every incident edge, in either direction
(igraph's default mode ALL). -/
def Graph.neighbors (g : Graph) (i : Nat) : List Nat :=
  g.edges.flatMap (fun e =>
    if e.1 = i then [e.2] else if e.2 = i then [e.1] else [])

/-- Translation of the authorship rows `(author_id, paper_id)` into
`(idmap[paper_id], author_id)` pairs, as done by the generator
`((idmap[paper_id], author_id) for author_id, paper_id in reader)`; the
unguarded subscript `idmap[paper_id]` raises `KeyError` on a paper id
missing from the map, so the translation of the whole table is
`Option`-valued. -/
def mapAuthorRows (idmap : String → Option Nat) (auth : List (String × String)) :
    Option (List (Nat × String)) :=
  mapOrFail (fun r => (idmap r.2).map (fun p => (p, r.1))) auth

/-- The `author_ids` vertex attribute of the paper graph, built by the loop
that appends `author_id` to `refg.vs[idmap[paper_id]]['author_ids']` for
each authorship row, expressed over the translated rows: the attribute of
vertex `v` is the list of authors of rows whose paper maps to `v`, in row
order. -/
def author_ids_attr (rows : List (Nat × String)) (v : Nat) : List String :=
  rows.filterMap (fun r => if r.1 = v then some r.2 else none)

/-- The `get_paper_edges` function: collect the `author_ids` lists of all
neighbors of the paper vertex, concatenate them, and pair the current
author with each collected author (a paper with no neighbors contributes
no edges). -/
def get_paper_edges (g : Graph) (attr : Nat → List String) (paper_id : Nat)
    (author_id : String) : List (String × String) :=
  let neighbors := g.neighbors paper_id
  let author_lists := neighbors.map attr
  let authors := author_lists.flatten
  authors.map (fun b => (author_id, b))

/-- The `get_edges` generator: all edges produced by `get_paper_edges`
over the list of (paper vertex, author) rows, in order. -/
def get_edges (g : Graph) (attr : Nat → List String) (rows : List (Nat × String)) :
    List (String × String) :=
  rows.flatMap (fun r => get_paper_edges g attr r.1 r.2)

/-- Normalization of an undirected edge to a (low, high) index pair, the
canonical representative igraph keeps when collapsing parallel edges. -/
def normEdge (e : Nat × Nat) : Nat × Nat :=
  if e.1 ≤ e.2 then e else (e.2, e.1)

/-- The `graph.simplify()` call: remove self-loops and collapse parallel
undirected edges, keeping one representative of each remaining edge. -/
def Graph.simplify (g : Graph) : Graph :=
  Graph.mk g.names (((g.edges.map normEdge).filter (fun e => e.1 != e.2)).dedup)

/-- The `build_undirected_graph` function: add one vertex per node name,
add every emitted edge (given by vertex-name pairs, which igraph resolves
through the graph's own name index, raising on an unknown name — hence
`Option`), then simplify. -/
def build_undirected_graph (nodes : List String) (edges : List (String × String)) :
    Option Graph :=
  (mapOrFail (fun e =>
      match (Graph.mk nodes []).idmap e.1, (Graph.mk nodes []).idmap e.2 with
      | some a, some b => some ((a, b) : Nat × Nat)
      | _, _ => none) edges).map
    (fun es => Graph.simplify (Graph.mk nodes es))

/-- Presence of an undirected edge between two vertex indices. -/
def Graph.hasEdge (g : Graph) (a b : Nat) : Prop :=
  (a, b) ∈ g.edges ∨ (b, a) ∈ g.edges

theorem mapOrFail_mem {α β : Type} {f : α → Option β} {l : List α} {res : List β}
    (h : mapOrFail f l = some res) {x : α} (hx : x ∈ l) :
    ∃ y, f x = some y ∧ y ∈ res := by
  induction l generalizing res with
  | nil => cases hx
  | cons a as ih =>
    rw [mapOrFail] at h
    cases hfa : f a <;> cases hrest : mapOrFail f as <;> rw [hfa, hrest] at h
    · exact Option.noConfusion h
    · exact Option.noConfusion h
    · exact Option.noConfusion h
    · rename_i y ys
      have hres : y :: ys = res := Option.some.inj h
      subst hres
      rcases List.mem_cons.mp hx with hxa | hxas
      · subst hxa
        exact ⟨y, hfa, List.mem_cons_self y ys⟩
      · obtain ⟨z, hz, hzmem⟩ := ih hrest hxas
        exact ⟨z, hz, List.mem_cons_of_mem y hzmem⟩

theorem mem_neighbors_of_edge {g : Graph} {i j : Nat}
    (h : (i, j) ∈ g.edges ∨ (j, i) ∈ g.edges) : j ∈ g.neighbors i := by
  rw [Graph.neighbors, List.mem_flatMap]
  rcases h with h | h
  · exact ⟨(i, j), h, by simp⟩
  · refine ⟨(j, i), h, ?_⟩
    by_cases hji : j = i
    · subst hji; simp
    · simp [hji]

theorem mem_author_ids_attr {rows : List (Nat × String)} {p : Nat} {a : String}
    (h : (p, a) ∈ rows) : a ∈ author_ids_attr rows p := by
  rw [author_ids_attr, List.mem_filterMap]
  exact ⟨(p, a), h, by simp⟩

theorem mem_get_edges {g : Graph} {attr : Nat → List String}
    {rows : List (Nat × String)} {p q : Nat} {a b : String}
    (hrow : (p, a) ∈ rows) (hq : q ∈ g.neighbors p) (hb : b ∈ attr q) :
    (a, b) ∈ get_edges g attr rows := by
  rw [get_edges, List.mem_flatMap]
  refine ⟨(p, a), hrow, ?_⟩
  rw [get_paper_edges, List.mem_map]
  refine ⟨b, ?_, rfl⟩
  rw [List.mem_flatten]
  exact ⟨attr q, List.mem_map_of_mem attr hq, hb⟩

theorem hasEdge_simplify {g : Graph} {a b : Nat} (hab : a ≠ b)
    (h : (a, b) ∈ g.edges ∨ (b, a) ∈ g.edges) : (Graph.simplify g).hasEdge a b := by
  have hmem : normEdge (a, b) ∈ (Graph.simplify g).edges ∨
      normEdge (b, a) ∈ (Graph.simplify g).edges := by
    rcases h with h | h
    · left
      rw [Graph.simplify, List.mem_dedup, List.mem_filter]
      refine ⟨List.mem_map_of_mem normEdge h, ?_⟩
      rw [normEdge]
      by_cases hle : a ≤ b <;> simp [hle, hab, Ne.symm hab]
    · right
      rw [Graph.simplify, List.mem_dedup, List.mem_filter]
      refine ⟨List.mem_map_of_mem normEdge h, ?_⟩
      rw [normEdge]
      by_cases hle : b ≤ a <;> simp [hle, hab, Ne.symm hab]
  rw [Graph.hasEdge]
  rcases hmem with hm | hm
  · rw [normEdge] at hm
    by_cases hle : a ≤ b
    · rw [if_pos hle] at hm; exact Or.inl hm
    · rw [if_neg hle] at hm; exact Or.inr hm
  · rw [normEdge] at hm
    by_cases hle : b ≤ a
    · rw [if_pos hle] at hm; exact Or.inr hm
    · rw [if_neg hle] at hm; exact Or.inl hm

/-- C8. Isolated-author inclusion: whenever the author co-citation graph
is built (one vertex per author id of the person table, then edge
addition, then simplification), its vertex-name list is exactly the node
list it was given — no vertex is dropped — and when the person-table ids
are distinct, each author id names exactly one vertex, including authors
touched by no edge. -/
theorem author_vertices_complete (nodes : List String)
    (edges : List (String × String)) (ag : Graph)
    (h : build_undirected_graph nodes edges = some ag) :
    ag.names = nodes ∧
      (nodes.Nodup → ∀ a, a ∈ nodes → ag.names.count a = 1) := by
  rw [build_undirected_graph, Option.map_eq_some'] at h
  obtain ⟨es, -, hag⟩ := h
  have hnames : ag.names = nodes := by rw [← hag]; rfl
  refine ⟨hnames, ?_⟩
  intro hnd a ha
  rw [hnames]
  exact List.count_eq_one_of_mem hnd ha

/-- Witness for C8: a three-author person table with a single emitted
edge; the third author has no incident edge yet still names exactly one
vertex of the built graph. -/
theorem author_vertices_complete_witness :
    build_undirected_graph ["a1", "a2", "a3"] [("a1", "a2")] =
        some (Graph.mk ["a1", "a2", "a3"] [(0, 1)]) ∧
      (Graph.mk ["a1", "a2", "a3"] [(0, 1)]).names = ["a1", "a2", "a3"] ∧
      (Graph.mk ["a1", "a2", "a3"] [(0, 1)]).names.count "a3" = 1 := by
  have hb : build_undirected_graph ["a1", "a2", "a3"] [("a1", "a2")] =
      some (Graph.mk ["a1", "a2", "a3"] [(0, 1)]) := by decide
  have hmain := author_vertices_complete ["a1", "a2", "a3"] [("a1", "a2")]
    (Graph.mk ["a1", "a2", "a3"] [(0, 1)]) hb
  refine ⟨hb, hmain.1, ?_⟩
  exact hmain.2 (by decide) "a3" (by decide)

/-- C1. Author co-citation projection: if papers `P1` and `P2` are
neighbors in the paper graph (a reference edge in either direction links
their vertices `p1`, `p2`), author `A1` is on `P1` and author `A2` is on
`P2` by authorship rows, and the author graph is built from the emitted
projection edges, then the simplified author graph contains the
undirected edge between the vertices named `A1` and `A2`. -/
theorem cocitation_projection (g : Graph) (auth : List (String × String))
    (nodes : List String) (rows : List (Nat × String)) (ag : Graph)
    (P1 P2 A1 A2 : String) (p1 p2 : Nat)
    (hrows : mapAuthorRows g.idmap auth = some rows)
    (hbuild : build_undirected_graph nodes
      (get_edges g (author_ids_attr rows) rows) = some ag)
    (hp1 : g.idmap P1 = some p1) (hp2 : g.idmap P2 = some p2)
    (hneigh : (p1, p2) ∈ g.edges ∨ (p2, p1) ∈ g.edges)
    (hA1 : (A1, P1) ∈ auth) (hA2 : (A2, P2) ∈ auth) (hA12 : A1 ≠ A2) :
    ∃ a1 a2, ag.idmap A1 = some a1 ∧ ag.idmap A2 = some a2 ∧
      ag.hasEdge a1 a2 := by
  have hrow1 : (p1, A1) ∈ rows := by
    obtain ⟨y, hy, hymem⟩ := mapOrFail_mem hrows hA1
    rw [hp1] at hy
    have : (p1, A1) = y := Option.some.inj hy
    rw [this]
    exact hymem
  have hrow2 : (p2, A2) ∈ rows := by
    obtain ⟨y, hy, hymem⟩ := mapOrFail_mem hrows hA2
    rw [hp2] at hy
    have : (p2, A2) = y := Option.some.inj hy
    rw [this]
    exact hymem
  have hedge : (A1, A2) ∈ get_edges g (author_ids_attr rows) rows :=
    mem_get_edges hrow1 (mem_neighbors_of_edge hneigh) (mem_author_ids_attr hrow2)
  rw [build_undirected_graph, Option.map_eq_some'] at hbuild
  obtain ⟨es, hes, hag⟩ := hbuild
  obtain ⟨y, hy, hymem⟩ := mapOrFail_mem hes hedge
  obtain ⟨ha1, ha2⟩ := edge_of_row_eq_some.mp hy
  have hagidmap : ag.idmap = (Graph.mk nodes []).idmap := by
    rw [← hag]; rfl
  have hne : y.1 ≠ y.2 := by
    intro hcontr
    have h1 := idmap_eq_some ha1
    have h2 := idmap_eq_some ha2
    rw [hcontr, h2] at h1
    exact hA12 (Option.some.inj h1).symm
  refine ⟨y.1, y.2, ?_, ?_, ?_⟩
  · rw [hagidmap]; exact ha1
  · rw [hagidmap]; exact ha2
  · rw [← hag]
    exact hasEdge_simplify hne (Or.inl (by rwa [← Prod.mk.eta (p := y)] at hymem))

/-- Witness for C1: two papers linked by one reference, one author on
each; the built author graph carries the projected undirected edge. -/
theorem cocitation_projection_witness :
    ∃ a1 a2,
      (Graph.mk ["A1", "A2"] [(0, 1)]).idmap "A1" = some a1 ∧
        (Graph.mk ["A1", "A2"] [(0, 1)]).idmap "A2" = some a2 ∧
        (Graph.mk ["A1", "A2"] [(0, 1)]).hasEdge a1 a2 :=
  cocitation_projection (Graph.mk ["P1", "P2"] [(0, 1)])
    [("A1", "P1"), ("A2", "P2")] ["A1", "A2"] [(0, "A1"), (1, "A2")]
    (Graph.mk ["A1", "A2"] [(0, 1)]) "P1" "P2" "A1" "A2" 0 1
    (by decide) (by decide) (by decide) (by decide) (by decide)
    (by decide) (by decide) (by decide)

/-- A data entry of the 1-indexed matrix-market corpus file: row id,
column id and value, the three whitespace-separated fields of a data
line (the two leading header lines are discarded before this point). -/
def MmEntry : Type := Int × Int × Int

/-- The Format Adapter's id shift: from each matrix-market data line take
the first two fields (`map(int, line[:2])`) and emit
`(node_id - 1, term_id - 1)` — the generator
`((node_id - 1, term_id - 1) for node_id, term_id in ids)`. -/
def mmTransform (entries : List MmEntry) : List (Int × Int) :=
  let ids := entries.map (fun e => (e.1, e.2.1))
  ids.map (fun p => (p.1 - 1, p.2 - 1))

/-- C6. Matrix-market index shift: the adapter output has one pair per
data entry, in order, and the pair for the entry with row `r` and column
`c` is exactly `(r - 1, c - 1)`. -/
theorem mm_index_shift (entries : List MmEntry) (i : Nat)
    (hi : i < entries.length) :
    (mmTransform entries).length = entries.length ∧
      (mmTransform entries).get? i =
        some ((entries.get ⟨i, hi⟩).1 - 1, (entries.get ⟨i, hi⟩).2.1 - 1) := by
  constructor
  · rw [mmTransform]
    simp
  · rw [mmTransform]
    simp only [List.get?_map]
    rw [List.get?_eq_get hi]
    rfl

/-- Witness for C6: the 1-indexed entry (row 1, col 1, value 4) is
emitted as the 0-indexed pair (0, 0). -/
theorem mm_index_shift_witness :
    (0 : Nat) < ([((1 : Int), (1 : Int), (4 : Int))] : List MmEntry).length ∧
      (mmTransform [((1 : Int), (1 : Int), (4 : Int))]).get? 0 =
        some ((0 : Int), (0 : Int)) := by
  refine ⟨by decide, ?_⟩
  have h := mm_index_shift [((1 : Int), (1 : Int), (4 : Int))] 0 (by decide)
  rw [h.2]
  rfl

theorem idmap_lt {g : Graph} {s : String} {i : Nat}
    (h : g.idmap s = some i) : i < g.names.length := by
  have h2 := idmap_eq_some h
  by_contra hge
  rw [List.get?_eq_none.mpr (Nat.le_of_not_lt hge)] at h2
  exact Option.noConfusion h2

/-- Generalization of `edge_of_row_eq_some` to two arbitrary lookups. -/
theorem pair_lookup_eq_some {o1 o2 : Option Nat} {e : Nat × Nat} :
    (match o1, o2 with
      | some a, some b => some ((a, b) : Nat × Nat)
      | _, _ => none) = some e ↔ o1 = some e.1 ∧ o2 = some e.2 := by
  cases o1 <;> cases o2 <;> simp [Prod.ext_iff]

/-- The `venues` vertex attribute of the LCC: each merged
(author, paper, venue) row adds one venue id to the Python set
`lcc.vs[node_id]['venues']`; a set holds each element at most once,
modelled by deduplication (set iteration order is unspecified in Python,
and nothing downstream depends on it — only membership does). -/
def venuesAttr (mrows : List (Nat × Nat)) (i : Nat) : List Nat :=
  (mrows.filterMap (fun r => if r.1 = i then some r.2 else none)).dedup

/-- The inner loop of the ground-truth inversion: for one vertex `i`,
append `i` to `communities[venue_id]` for each `venue_id` in the vertex's
venue list. -/
def commStep (acc : Nat → List Nat) (i : Nat) (vids : List Nat) :
    Nat → List Nat :=
  vids.foldl (fun a vid => fun v => if v = vid then a v ++ [i] else a v) acc

/-- The ground-truth communities map, built as the inverse index:
`for v in lcc.vs: for venue_id in v['venues']:
communities[venue_id].append(v.index)`, starting from an empty list per
venue id. -/
def communities (n : Nat) (venues : Nat → List Nat) : Nat → List Nat :=
  (List.range n).foldl (fun acc i => commStep acc i (venues i)) (fun _ => [])

theorem commStep_apply (acc : Nat → List Nat) (i : Nat) (vids : List Nat)
    (v : Nat) :
    commStep acc i vids v = acc v ++ List.replicate (vids.count v) i := by
  induction vids generalizing acc with
  | nil => simp [commStep]
  | cons w ws ih =>
    have h1 : commStep acc i (w :: ws) v =
        commStep (fun u => if u = w then acc u ++ [i] else acc u) i ws v := rfl
    rw [h1, ih]
    show (if v = w then acc v ++ [i] else acc v) ++
        List.replicate (ws.count v) i =
      acc v ++ List.replicate ((w :: ws).count v) i
    by_cases hvw : v = w
    · subst hvw
      rw [if_pos rfl, List.count_cons_self, List.append_assoc]
      congr 1
    · rw [if_neg hvw, List.count_cons_of_ne hvw]

theorem communities_apply (n : Nat) (venues : Nat → List Nat) (v : Nat) :
    communities n venues v =
      (List.range n).flatMap
        (fun i => List.replicate ((venues i).count v) i) := by
  suffices hgen : ∀ (is : List Nat) (acc : Nat → List Nat),
      (is.foldl (fun acc i => commStep acc i (venues i)) acc) v =
        acc v ++ is.flatMap (fun i => List.replicate ((venues i).count v) i) by
    rw [communities, hgen]
    rfl
  intro is
  induction is with
  | nil => intro acc; simp
  | cons j js ih =>
    intro acc
    rw [List.foldl_cons, ih, commStep_apply, List.flatMap_cons, List.append_assoc]

theorem flatMap_singleton_eq_filter (p : Nat → Bool) (l : List Nat) :
    (l.flatMap (fun j => if p j then [j] else [])) = l.filter p := by
  induction l with
  | nil => rfl
  | cons a as ih =>
    rw [List.flatMap_cons, List.filter_cons]
    by_cases hp : p a
    · rw [if_pos hp, if_pos hp, ih]
      rfl
    · rw [if_neg hp, if_neg hp, ih]
      rfl

theorem communities_eq_filter (n : Nat) (mrows : List (Nat × Nat)) (v : Nat) :
    communities n (venuesAttr mrows) v =
      (List.range n).filter (fun i => (venuesAttr mrows i).contains v) := by
  rw [communities_apply, ← flatMap_singleton_eq_filter]
  apply List.flatMap_congr
  intro i _
  by_cases hv : v ∈ venuesAttr mrows i
  · have hnd : (venuesAttr mrows i).Nodup := by
      rw [venuesAttr]; exact List.nodup_dedup _
    rw [List.count_eq_one_of_mem hnd hv]
    rw [if_pos (List.contains_iff_exists_mem_beq.mpr ⟨v, hv, by simp⟩)]
    rfl
  · have hc : (venuesAttr mrows i).contains v = false := by
      by_contra hcc
      rw [Bool.not_eq_false] at hcc
      exact hv (mem_of_contains hcc)
    rw [List.count_eq_zero.mpr hv, hc]
    rfl

/-- C7. Community inversion round-trip: for every LCC vertex index `i`
and venue id `vid`, `i` appears in the member list of community `vid`
exactly when `vid` is in the vertex's venue set — and then exactly once —
so the communities map is the exact inverse index of the per-vertex venue
assignment. -/
theorem community_inversion (n : Nat) (mrows : List (Nat × Nat))
    (i vid : Nat) (hi : i < n) :
    (i ∈ communities n (venuesAttr mrows) vid ↔ vid ∈ venuesAttr mrows i) ∧
      (communities n (venuesAttr mrows) vid).count i ≤ 1 := by
  rw [communities_eq_filter]
  constructor
  · rw [List.mem_filter]
    constructor
    · rintro ⟨-, hc⟩
      exact mem_of_contains hc
    · intro hmem
      exact ⟨List.mem_range.mpr hi,
        List.contains_iff_exists_mem_beq.mpr ⟨vid, hmem, by simp⟩⟩
  · have hnd : ((List.range n).filter
        (fun j => (venuesAttr mrows j).contains vid)).Nodup :=
      (List.nodup_range n).filter _
    exact List.nodup_iff_count_le_one.mp hnd i

/-- Witness for C7 at a concrete instance: two LCC vertices, vertex 0
carrying venue ids 5 and 7, vertex 1 carrying venue id 5. -/
theorem community_inversion_witness :
    ((0 ∈ communities 2 (venuesAttr [(0, 5), (1, 5), (0, 7)]) 7 ↔
        7 ∈ venuesAttr [(0, 5), (1, 5), (0, 7)] 0) ∧
      (communities 2 (venuesAttr [(0, 5), (1, 5), (0, 7)]) 7).count 0 ≤ 1) ∧
      (0 : Nat) < 2 :=
  ⟨community_inversion 2 [(0, 5), (1, 5), (0, 7)] 0 7 (by decide), by decide⟩

/-- The sorted unique venue listing of the merged author/paper table:
`unique_venues = merge_df['venue'].unique(); unique_venues.sort()`. -/
def uniqueSortedVenues (mergeVenues : List String) : List String :=
  (mergeVenues.dedup).mergeSort (fun a b => decide (a ≤ b))

/-- The venue identifier map
`{venue: vnum for vnum, venue in enumerate(unique_venues)}`: the same
dict-from-enumeration shape as a graph identifier map, so it is expressed
through `Graph.idmap` on the sorted unique venue names. -/
def venue_map (mergeVenues : List String) : String → Option Nat :=
  Graph.idmap (Graph.mk (uniqueSortedVenues mergeVenues) [])

/-- Translation of the merged rows `(author_id, venue)` into
`(lcc_idmap[str(author_id)], venue_map[venue])` pairs, as done by the
venue-attachment loop; both subscripts are unguarded and raise `KeyError`
on a missing key, hence `Option`. -/
def mapMergeRows (lcc_idmap : String → Option Nat)
    (vmap : String → Option Nat) (mergeRows : List (String × String)) :
    Option (List (Nat × Nat)) :=
  mapOrFail (fun r =>
    match lcc_idmap r.1, vmap r.2 with
    | some i, some vid => some ((i, vid) : Nat × Nat)
    | _, _ => none) mergeRows

theorem nodup_uniqueSortedVenues (mergeVenues : List String) :
    (uniqueSortedVenues mergeVenues).Nodup := by
  rw [uniqueSortedVenues]
  exact (List.mergeSort_perm (mergeVenues.dedup) _).symm.nodup
    (List.nodup_dedup _)

/-- C10. Every ground-truth community is non-empty: each venue id of the
venue map comes from at least one merged (LCC author, venue) row, and that
same row inserts the author's LCC node id into that venue's community, so
the member list of every venue id in the map contains at least one node
id. -/
theorem communities_nonempty (lccg : Graph) (mergeRows : List (String × String))
    (mrows : List (Nat × Nat)) (vid : Nat)
    (hmap : mapMergeRows lccg.idmap (venue_map (mergeRows.map Prod.snd))
      mergeRows = some mrows)
    (hvid : vid < (uniqueSortedVenues (mergeRows.map Prod.snd)).length) :
    communities lccg.names.length (venuesAttr mrows) vid ≠ [] := by
  have hsid : venue_map (mergeRows.map Prod.snd)
      ((uniqueSortedVenues (mergeRows.map Prod.snd)).get ⟨vid, hvid⟩) =
      some vid :=
    idmap_get_self (nodup_uniqueSortedVenues (mergeRows.map Prod.snd)) hvid
  generalize hseq :
    (uniqueSortedVenues (mergeRows.map Prod.snd)).get ⟨vid, hvid⟩ = s at hsid
  have hsget : s ∈ uniqueSortedVenues (mergeRows.map Prod.snd) :=
    hseq ▸ List.get_mem (uniqueSortedVenues (mergeRows.map Prod.snd)) vid hvid
  have hsmem : s ∈ mergeRows.map Prod.snd := by
    have h2 : s ∈ ((mergeRows.map Prod.snd).dedup).mergeSort
        (fun a b => decide (a ≤ b)) := hsget
    exact List.mem_dedup.mp (List.mem_mergeSort.mp h2)
  obtain ⟨r, hr, hrs⟩ := List.mem_map.mp hsmem
  have hvmap : venue_map (mergeRows.map Prod.snd) r.2 = some vid := by
    rw [hrs]
    exact hsid
  obtain ⟨y, hy, hymem⟩ := mapOrFail_mem hmap hr
  obtain ⟨hy1, hy2⟩ := pair_lookup_eq_some.mp hy
  have hyvid : y.2 = vid := by
    rw [hvmap] at hy2
    exact (Option.some.inj hy2).symm
  have hylt : y.1 < lccg.names.length := idmap_lt hy1
  have hvin : vid ∈ venuesAttr mrows y.1 := by
    rw [venuesAttr, List.mem_dedup, List.mem_filterMap]
    refine ⟨y, ?_, ?_⟩
    · rwa [← Prod.mk.eta (p := y)] at hymem
    · rw [if_pos rfl, hyvid]
  have hmemc : y.1 ∈ communities lccg.names.length (venuesAttr mrows) vid := by
    rw [communities_eq_filter, List.mem_filter]
    exact ⟨List.mem_range.mpr hylt,
      List.contains_iff_exists_mem_beq.mpr ⟨vid, hvin, by simp⟩⟩
  exact List.ne_nil_of_mem hmemc

/-- Witness for C10: a single merged row ("a1", "V1") on a one-vertex
LCC; venue id 0 gets the non-empty community [0]. -/
theorem communities_nonempty_witness :
    mapMergeRows (Graph.mk ["a1"] []).idmap
        (venue_map ([("a1", "V1")].map Prod.snd)) [("a1", "V1")] =
        some [(0, 0)] ∧
      (0 : Nat) < (uniqueSortedVenues ([("a1", "V1")].map Prod.snd)).length ∧
      communities (Graph.mk ["a1"] []).names.length
        (venuesAttr [(0, 0)]) 0 ≠ [] := by
  have huniq : uniqueSortedVenues ([("a1", "V1")].map Prod.snd) = ["V1"] := by
    have h1 : ([("a1", "V1")].map Prod.snd).dedup = ["V1"] := by decide
    rw [uniqueSortedVenues, h1]
    exact List.mergeSort_singleton "V1"
  have hmap : mapMergeRows (Graph.mk ["a1"] []).idmap
      (venue_map ([("a1", "V1")].map Prod.snd)) [("a1", "V1")] =
      some [(0, 0)] := by
    rw [venue_map, huniq]
    decide
  refine ⟨hmap, ?_, communities_nonempty (Graph.mk ["a1"] [])
    [("a1", "V1")] [(0, 0)] 0 hmap ?_⟩
  · rw [huniq]; decide
  · rw [huniq]; decide

/-- An error raised by the Python runtime during a stage. -/
inductive PyError : Type
  | nameError (n : String)
  | keyError
deriving DecidableEq

/-- The module-level names of `pipeline.py` that are bound before the
venue-attachment block runs (imports, file-name constants, and every
variable assigned earlier in the module, including leaked loop
variables).  The lowercase name `papers_file` is not among them: the
paper-table constant is spelled `PAPER_FILE`, and no assignment to
`papers_file` exists anywhere in the module. -/
def moduleBindings : List String :=
  ["os", "sys", "csv", "pd", "igraph", "gensim", "doctovec",
   "ORIG_PAPER_FILE", "PAPER_FILE", "AUTHOR_FILE", "PERSON_FILE",
   "REFS_FILE", "VENUE_FILE", "YEAR_FILE", "start", "end", "df",
   "author_df", "person_df", "refs_df", "newdir", "init_wd", "rows", "f",
   "reader", "records", "docs", "doc_file", "vec_file", "doc_writer",
   "vec_writer", "headers", "docid", "doc", "vector", "concat",
   "paper_ids", "author_ids", "repdocs", "person_id", "paper_id",
   "write_csv", "refg", "idmap"]

/-- Python name resolution at module level: a lookup of an unbound name
raises `NameError`. -/
def resolveName (bound : List String) (n : String) : Except PyError String :=
  if bound.contains n then Except.ok n else Except.error (PyError.nameError n)

/-- The venue-attachment block of the paper-graph stage as written:
`with open(papers_file) as f: ... refg.vs[idmap[paper_id]]['venue'] = venue`.
Its first action resolves the module-level name `papers_file`; if that
succeeds the loop builds the venue vertex attribute (last assignment to a
vertex wins, unguarded `idmap[paper_id]` raising `KeyError`), returning
the vertex-index → venue assignment. -/
def attachVenues (bound : List String) (pm : String → Option Nat)
    (paperRows : List (String × String)) :
    Except PyError (Nat → Option String) :=
  match resolveName bound "papers_file" with
  | Except.error e => Except.error e
  | Except.ok _ =>
    match mapOrFail (fun r => (pm r.1).map (fun i => (i, r.2))) paperRows with
    | some prs => Except.ok (pydict prs)
    | none => Except.error PyError.keyError

/-- C5 (code-bug evaluation). Venue attachment never happens: for every
identifier map and every paper table, the venue-attachment block stops
with `NameError` on the unbound name `papers_file` (the source misspells
the constant `PAPER_FILE`), so no vertex ever receives its venue
attribute and the stage never reaches the graph-persisting calls. -/
theorem venue_attach_raises_nameError (pm : String → Option Nat)
    (paperRows : List (String × String)) :
    attachVenues moduleBindings pm paperRows =
      Except.error (PyError.nameError "papers_file") :=
  rfl

/-- Boolean adjacency between two vertex indices: some edge joins them,
in either direction (the author graph is undirected, so
`authorg.components()` uses undirected reachability). -/
def Graph.adj (g : Graph) (i j : Nat) : Bool :=
  g.edges.any (fun e => (e.1 == i && e.2 == j) || (e.1 == j && e.2 == i))

/-- Adjacency as a proposition. -/
def Adj (g : Graph) (i j : Nat) : Prop := g.adj i j = true

/-- Undirected reachability between vertex indices: the
reflexive-transitive closure of adjacency.  `authorg.components()`
partitions the vertices into the classes of this relation. -/
def Reach (g : Graph) : Nat → Nat → Prop := Relation.ReflTransGen (Adj g)

/-- Well-formedness of a graph: every edge endpoint is a vertex index.
Every graph igraph hands out satisfies this (igraph rejects edges to
nonexistent vertices). -/
def EdgesValid (g : Graph) : Prop :=
  ∀ e ∈ g.edges, e.1 < g.names.length ∧ e.2 < g.names.length

instance (g : Graph) : Decidable (EdgesValid g) :=
  List.decidableBAll _ g.edges

/-- One saturation step of the connected-component computation: keep the
current vertex set and add every vertex of the graph adjacent to it. -/
def expandStep (g : Graph) (s : List Nat) : List Nat :=
  (s ++ (List.range g.names.length).filter
    (fun j => s.any (fun i => g.adj i j))).dedup

/-- The vertices reachable from `i`: `|V|` saturation steps from `{i}`,
enough to reach any vertex of the component. -/
def reachList (g : Graph) (i : Nat) : List Nat :=
  Nat.iterate (expandStep g) g.names.length [i]

theorem adj_symm {g : Graph} {i j : Nat} (h : Adj g i j) : Adj g j i := by
  rw [Adj, Graph.adj, List.any_eq_true] at h ⊢
  obtain ⟨e, he, hp⟩ := h
  refine ⟨e, he, ?_⟩
  rw [Bool.or_eq_true] at hp ⊢
  exact hp.symm

theorem adj_lt {g : Graph} (hv : EdgesValid g) {i j : Nat} (h : Adj g i j) :
    i < g.names.length ∧ j < g.names.length := by
  rw [Adj, Graph.adj, List.any_eq_true] at h
  obtain ⟨e, he, hp⟩ := h
  obtain ⟨h1, h2⟩ := hv e he
  rw [Bool.or_eq_true, Bool.and_eq_true, Bool.and_eq_true] at hp
  rcases hp with ⟨ha, hb⟩ | ⟨ha, hb⟩
  · rw [← eq_of_beq ha, ← eq_of_beq hb]
    exact ⟨h1, h2⟩
  · rw [← eq_of_beq ha, ← eq_of_beq hb]
    exact ⟨h2, h1⟩

theorem reach_symm {g : Graph} {i j : Nat} (h : Reach g i j) : Reach g j i :=
  Relation.ReflTransGen.symmetric (fun _ _ hab => adj_symm hab) h

theorem mem_expandStep {g : Graph} {s : List Nat} {x : Nat} :
    x ∈ expandStep g s ↔
      x ∈ s ∨ (x < g.names.length ∧ ∃ y ∈ s, Adj g y x) := by
  rw [expandStep, List.mem_dedup, List.mem_append, List.mem_filter,
    List.mem_range, List.any_eq_true]
  rfl

theorem subset_expandStep {g : Graph} (s : List Nat) : s ⊆ expandStep g s :=
  fun _ hx => mem_expandStep.mpr (Or.inl hx)

theorem subset_iterate_expandStep {g : Graph} (k : Nat) (s : List Nat) :
    s ⊆ Nat.iterate (expandStep g) k s := by
  induction k generalizing s with
  | zero => exact fun _ hx => hx
  | succ m ih =>
    intro x hx
    rw [Function.iterate_succ_apply]
    exact ih (expandStep g s) (subset_expandStep s hx)

theorem mem_reachList_self {g : Graph} (i : Nat) : i ∈ reachList g i :=
  subset_iterate_expandStep g.names.length [i] (List.mem_singleton_self i)

theorem reach_of_mem_reachList {g : Graph} {i x : Nat}
    (h : x ∈ reachList g i) : Reach g i x := by
  rw [reachList] at h
  have hgen : ∀ (k : Nat) (s : List Nat), (∀ y ∈ s, Reach g i y) →
      ∀ z ∈ Nat.iterate (expandStep g) k s, Reach g i z := by
    intro k
    induction k with
    | zero => intro s hs z hz; exact hs z hz
    | succ m ih =>
      intro s hs z hz
      rw [Function.iterate_succ_apply] at hz
      refine ih (expandStep g s) ?_ z hz
      intro y hy
      rcases mem_expandStep.mp hy with hy | ⟨-, w, hw, hadj⟩
      · exact hs y hy
      · exact Relation.ReflTransGen.tail (hs w hw) hadj
  refine hgen g.names.length [i] ?_ x h
  intro y hy
  rw [List.mem_singleton] at hy
  rw [hy]
  exact Relation.ReflTransGen.refl

theorem iterate_expandStep_lt {g : Graph} {i : Nat}
    (hi : i < g.names.length) (k : Nat) {x : Nat}
    (h : x ∈ Nat.iterate (expandStep g) k [i]) : x < g.names.length := by
  have hgen : ∀ (m : Nat) (s : List Nat), (∀ y ∈ s, y < g.names.length) →
      ∀ z ∈ Nat.iterate (expandStep g) m s, z < g.names.length := by
    intro m
    induction m with
    | zero => intro s hs z hz; exact hs z hz
    | succ m ih =>
      intro s hs z hz
      rw [Function.iterate_succ_apply] at hz
      refine ih (expandStep g s) ?_ z hz
      intro y hy
      rcases mem_expandStep.mp hy with hy | ⟨hlt, -⟩
      · exact hs y hy
      · exact hlt
  refine hgen k [i] ?_ x h
  intro y hy
  rw [List.mem_singleton] at hy
  rw [hy]
  exact hi

theorem mem_reachList_lt {g : Graph} {i : Nat}
    (hi : i < g.names.length) {x : Nat} (h : x ∈ reachList g i) :
    x < g.names.length :=
  iterate_expandStep_lt hi g.names.length h

theorem expandStep_congr_mem {g : Graph} {s t : List Nat}
    (h : ∀ x, x ∈ s ↔ x ∈ t) (x : Nat) :
    x ∈ expandStep g s ↔ x ∈ expandStep g t := by
  rw [mem_expandStep, mem_expandStep]
  constructor
  · rintro (hx | ⟨hlt, y, hy, hadj⟩)
    · exact Or.inl ((h x).mp hx)
    · exact Or.inr ⟨hlt, y, (h y).mp hy, hadj⟩
  · rintro (hx | ⟨hlt, y, hy, hadj⟩)
    · exact Or.inl ((h x).mpr hx)
    · exact Or.inr ⟨hlt, y, (h y).mpr hy, hadj⟩

theorem dedup_length_lt_of_new_mem {s t : List Nat} (hsub : s ⊆ t) {x : Nat}
    (hxt : x ∈ t) (hxs : x ∉ s) : s.dedup.length < t.dedup.length := by
  have hnd : (x :: s.dedup).Nodup :=
    List.nodup_cons.mpr ⟨fun hc => hxs (List.mem_dedup.mp hc), List.nodup_dedup s⟩
  have hsubd : (x :: s.dedup) ⊆ t.dedup := by
    intro y hy
    rcases List.mem_cons.mp hy with hyx | hys
    · rw [hyx]; exact List.mem_dedup.mpr hxt
    · exact List.mem_dedup.mpr (hsub (List.mem_dedup.mp hys))
  have hle := (List.subperm_of_subset hnd hsubd).length_le
  rw [List.length_cons] at hle
  omega

theorem dedup_length_le_of_lt {s : List Nat} {n : Nat}
    (h : ∀ x ∈ s, x < n) : s.dedup.length ≤ n := by
  have hsubd : s.dedup ⊆ List.range n := by
    intro y hy
    exact List.mem_range.mpr (h y (List.mem_dedup.mp hy))
  have hle := (List.subperm_of_subset (List.nodup_dedup s) hsubd).length_le
  rwa [List.length_range] at hle

theorem reachList_saturated {g : Graph} {i : Nat} (hi : i < g.names.length)
    (x : Nat) : x ∈ expandStep g (reachList g i) ↔ x ∈ reachList g i := by
  have hmono : ∀ k : Nat, ∀ y ∈ Nat.iterate (expandStep g) k [i],
      y ∈ Nat.iterate (expandStep g) (k + 1) [i] := by
    intro k y hy
    rw [Function.iterate_succ_apply']
    exact subset_expandStep _ hy
  have hpersist : ∀ k : Nat,
      (∀ y, y ∈ Nat.iterate (expandStep g) (k + 1) [i] ↔
        y ∈ Nat.iterate (expandStep g) k [i]) →
      ∀ m : Nat, k ≤ m → ∀ y, y ∈ Nat.iterate (expandStep g) m [i] ↔
        y ∈ Nat.iterate (expandStep g) k [i] := by
    intro k hPk m hkm
    induction m, hkm using Nat.le_induction with
    | base => intro y; rfl
    | succ m hkm ih =>
      intro y
      rw [Function.iterate_succ_apply']
      rw [expandStep_congr_mem ih y]
      have h3 : expandStep g (Nat.iterate (expandStep g) k [i]) =
          Nat.iterate (expandStep g) (k + 1) [i] :=
        (Function.iterate_succ_apply' (expandStep g) k [i]).symm
      rw [h3]
      exact hPk y
  have hsat : ∃ k, k < g.names.length ∧
      (∀ y, y ∈ Nat.iterate (expandStep g) (k + 1) [i] ↔
        y ∈ Nat.iterate (expandStep g) k [i]) := by
    by_contra hall
    push_neg at hall
    have hgrow : ∀ k, k ≤ g.names.length →
        k + 1 ≤ (Nat.iterate (expandStep g) k [i]).dedup.length := by
      intro k
      induction k with
      | zero =>
        intro _
        have h0 : Nat.iterate (expandStep g) 0 [i] = [i] := rfl
        rw [h0]
        have hd : ([i] : List Nat).dedup = [i] := by
          rw [List.dedup_cons_of_not_mem (List.not_mem_nil i), List.dedup_nil]
        rw [hd]
        exact Nat.le_refl 1
      | succ k ih =>
        intro hk1
        have hklt : k < g.names.length := Nat.lt_of_succ_le hk1
        obtain ⟨y, hy⟩ := hall k hklt
        rcases hy with ⟨hy1, hy2⟩ | ⟨hy1, hy2⟩
        · have hstep :=
            dedup_length_lt_of_new_mem (fun z hz => hmono k z hz) hy1 hy2
          have hih := ih (Nat.le_of_lt hklt)
          omega
        · exact absurd (hmono k y hy2) hy1
    have hfin := hgrow g.names.length (Nat.le_refl _)
    have hcap := dedup_length_le_of_lt
      (fun x hx => iterate_expandStep_lt hi g.names.length hx)
    omega
  obtain ⟨k, hk, hPk⟩ := hsat
  have hnk := hpersist k hPk g.names.length (Nat.le_of_lt hk)
  rw [reachList, expandStep_congr_mem hnk x]
  have h3 : expandStep g (Nat.iterate (expandStep g) k [i]) =
      Nat.iterate (expandStep g) (k + 1) [i] :=
    (Function.iterate_succ_apply' (expandStep g) k [i]).symm
  rw [h3, hPk x]
  exact (hnk x).symm

theorem reachList_closed {g : Graph} (hv : EdgesValid g) {i : Nat}
    (hi : i < g.names.length) {x y : Nat} (hx : x ∈ reachList g i)
    (hadj : Adj g x y) : y ∈ reachList g i :=
  (reachList_saturated hi y).mp
    (mem_expandStep.mpr (Or.inr ⟨(adj_lt hv hadj).2, x, hx, hadj⟩))

theorem mem_reachList_of_reach {g : Graph} (hv : EdgesValid g) {i j : Nat}
    (hi : i < g.names.length) (h : Reach g i j) : j ∈ reachList g i := by
  induction h with
  | refl => exact mem_reachList_self i
  | tail hab hbc ih => exact reachList_closed hv hi ih hbc

/-- The representative of vertex `i`'s connected component: the smallest
vertex index reachable from `i`.  igraph's `components()` labels clusters
in order of their smallest member, so components are identified here by
that smallest member. -/
def Graph.rep (g : Graph) (i : Nat) : Nat :=
  (((List.range g.names.length).filter
    (fun j => (reachList g i).contains j)).head?).getD i

/-- The vertex list of the component with representative `r`, in
ascending vertex-index order — the order igraph's `subgraph()` keeps. -/
def compClass (g : Graph) (r : Nat) : List Nat :=
  (List.range g.names.length).filter (fun i => g.rep i == r)

/-- Vertex count of the component with representative `r`. -/
def compSize (g : Graph) (r : Nat) : Nat := (compClass g r).length

/-- The component representatives, in igraph's cluster order (ascending
smallest member). -/
def Graph.reps (g : Graph) : List Nat :=
  (List.range g.names.length).filter (fun i => g.rep i == i)

/-- The cluster sizes `components().sizes()` in cluster order. -/
def clusterSizes (g : Graph) : List Nat :=
  g.reps.map (compSize g)

/-- The representative of the cluster `giant()` picks:
`ss.index(max(ss))` — the first cluster of maximum size. -/
def giantRep (g : Graph) : Nat :=
  g.reps.getD ((clusterSizes g).indexOf ((clusterSizes g).foldr max 0)) 0

/-- The vertex list of the giant cluster. -/
def giantVerts (g : Graph) : List Nat := compClass g (giantRep g)

/-- igraph's `subgraph()`: the vertex-induced subgraph on the vertex list
`vs` — vertices keep their names, in `vs` order, and each edge with both
endpoints in `vs` is reindexed by endpoint position in `vs`. -/
def induced (g : Graph) (vs : List Nat) : Graph :=
  Graph.mk (vs.map (fun i => g.names.getD i ""))
    (g.edges.filterMap (fun e =>
      match vs.indexOf? e.1, vs.indexOf? e.2 with
      | some a, some b => some ((a, b) : Nat × Nat)
      | _, _ => none))

/-- The largest connected component `components().giant()`. -/
def Graph.giant (g : Graph) : Graph := induced g (giantVerts g)

theorem rep_spec {g : Graph} {i : Nat} (hi : i < g.names.length) :
    g.rep i < g.names.length ∧ g.rep i ∈ reachList g i := by
  have himem : i ∈ (List.range g.names.length).filter
      (fun j => (reachList g i).contains j) := by
    rw [List.mem_filter]
    exact ⟨List.mem_range.mpr hi,
      List.contains_iff_exists_mem_beq.mpr ⟨i, mem_reachList_self i, by simp⟩⟩
  cases hL : ((List.range g.names.length).filter
      (fun j => (reachList g i).contains j)).head? with
  | none =>
    rw [List.head?_eq_none_iff] at hL
    rw [hL] at himem
    cases himem
  | some a =>
    have ha : a ∈ (List.range g.names.length).filter
        (fun j => (reachList g i).contains j) := by
      apply List.mem_of_mem_head?
      rw [hL]
      exact Option.mem_some_iff.mpr rfl
    rw [List.mem_filter, List.mem_range] at ha
    have hrep : g.rep i = a := by
      rw [Graph.rep, hL]
      rfl
    rw [hrep]
    exact ⟨ha.1, mem_of_contains ha.2⟩

theorem reach_rep {g : Graph} {i : Nat} (hi : i < g.names.length) :
    Reach g i (g.rep i) :=
  reach_of_mem_reachList (rep_spec hi).2

theorem rep_congr {g : Graph} (hv : EdgesValid g) {i j : Nat}
    (hi : i < g.names.length) (hj : j < g.names.length) (h : Reach g i j) :
    g.rep i = g.rep j := by
  have hmemiff : ∀ x, x ∈ reachList g i ↔ x ∈ reachList g j := by
    intro x
    constructor
    · intro hx
      exact mem_reachList_of_reach hv hj
        (Relation.ReflTransGen.trans (reach_symm h) (reach_of_mem_reachList hx))
    · intro hx
      exact mem_reachList_of_reach hv hi
        (Relation.ReflTransGen.trans h (reach_of_mem_reachList hx))
  have hfilters : (List.range g.names.length).filter
      (fun x => (reachList g i).contains x) =
      (List.range g.names.length).filter
        (fun x => (reachList g j).contains x) := by
    apply List.filter_congr
    intro a _
    by_cases hs : a ∈ reachList g i
    · have h1 : (reachList g i).contains a = true :=
        List.contains_iff_exists_mem_beq.mpr ⟨a, hs, by simp⟩
      have h2 : (reachList g j).contains a = true :=
        List.contains_iff_exists_mem_beq.mpr ⟨a, (hmemiff a).mp hs, by simp⟩
      rw [h1, h2]
    · have h1 : (reachList g i).contains a = false := by
        by_contra hc
        rw [Bool.not_eq_false] at hc
        exact hs (mem_of_contains hc)
      have h2 : (reachList g j).contains a = false := by
        by_contra hc
        rw [Bool.not_eq_false] at hc
        exact hs ((hmemiff a).mpr (mem_of_contains hc))
      rw [h1, h2]
  have himem : i ∈ (List.range g.names.length).filter
      (fun x => (reachList g i).contains x) := by
    rw [List.mem_filter]
    exact ⟨List.mem_range.mpr hi,
      List.contains_iff_exists_mem_beq.mpr ⟨i, mem_reachList_self i, by simp⟩⟩
  cases hL : ((List.range g.names.length).filter
      (fun x => (reachList g i).contains x)).head? with
  | none =>
    rw [List.head?_eq_none_iff] at hL
    rw [hL] at himem
    cases himem
  | some a =>
    have h1 : g.rep i = a := by
      rw [Graph.rep, hL]
      rfl
    have h2 : g.rep j = a := by
      rw [Graph.rep, ← hfilters, hL]
      rfl
    rw [h1, h2]

theorem mem_compClass {g : Graph} {r j : Nat} :
    j ∈ compClass g r ↔ j < g.names.length ∧ g.rep j = r := by
  rw [compClass, List.mem_filter, List.mem_range]
  constructor
  · rintro ⟨h1, h2⟩
    exact ⟨h1, eq_of_beq h2⟩
  · rintro ⟨h1, h2⟩
    exact ⟨h1, by rw [h2]; simp⟩

theorem mem_reps {g : Graph} {r : Nat} :
    r ∈ g.reps ↔ r < g.names.length ∧ g.rep r = r := by
  rw [Graph.reps, List.mem_filter, List.mem_range]
  constructor
  · rintro ⟨h1, h2⟩
    exact ⟨h1, eq_of_beq h2⟩
  · rintro ⟨h1, h2⟩
    exact ⟨h1, by rw [h2]; simp⟩

theorem rep_zero {g : Graph} (hne : g.names ≠ []) : g.rep 0 = 0 := by
  have hn : 0 < g.names.length := List.length_pos.mpr hne
  obtain ⟨m, hm⟩ := Nat.exists_eq_succ_of_ne_zero (Nat.pos_iff_ne_zero.mp hn)
  have hc : (reachList g 0).contains 0 = true :=
    List.contains_iff_exists_mem_beq.mpr ⟨0, mem_reachList_self 0, by simp⟩
  rw [Graph.rep, hm, List.range_succ_eq_map, List.filter_cons, hc]
  rfl

theorem reps_ne_nil {g : Graph} (hne : g.names ≠ []) : g.reps ≠ [] := by
  have h0 : (0 : Nat) ∈ g.reps :=
    mem_reps.mpr ⟨List.length_pos.mpr hne, rep_zero hne⟩
  exact List.ne_nil_of_mem h0

theorem le_foldr_max {l : List Nat} {x : Nat} (h : x ∈ l) :
    x ≤ l.foldr max 0 := by
  induction l with
  | nil => cases h
  | cons a t ih =>
    rw [List.foldr_cons]
    rcases List.mem_cons.mp h with hx | hx
    · rw [hx]; exact Nat.le_max_left a _
    · exact Nat.le_trans (ih hx) (Nat.le_max_right a _)

theorem foldr_max_mem {l : List Nat} (h : l ≠ []) : l.foldr max 0 ∈ l := by
  induction l with
  | nil => exact absurd rfl h
  | cons a t ih =>
    rw [List.foldr_cons]
    by_cases ht : t = []
    · subst ht
      simp
    · rcases Nat.le_total (t.foldr max 0) a with hle | hle
      · rw [Nat.max_eq_left hle]
        exact List.mem_cons_self a t
      · rw [Nat.max_eq_right hle]
        exact List.mem_cons_of_mem a (ih ht)

theorem giantRep_spec {g : Graph} (hne : g.names ≠ []) :
    giantRep g ∈ g.reps ∧
      compSize g (giantRep g) = (clusterSizes g).foldr max 0 := by
  have hsne : clusterSizes g ≠ [] := by
    rw [clusterSizes]
    intro hc
    exact reps_ne_nil hne (List.map_eq_nil_iff.mp hc)
  have hmax_mem := foldr_max_mem hsne
  have hidx : (clusterSizes g).indexOf ((clusterSizes g).foldr max 0) <
      (clusterSizes g).length := List.indexOf_lt_length.mpr hmax_mem
  have hidx2 : (clusterSizes g).indexOf ((clusterSizes g).foldr max 0) <
      g.reps.length := by
    rw [clusterSizes, List.length_map] at hidx
    exact hidx
  have hgr : giantRep g = g.reps.get
      ⟨(clusterSizes g).indexOf ((clusterSizes g).foldr max 0), hidx2⟩ := by
    rw [giantRep]
    exact List.getD_eq_get g.reps 0 hidx2
  constructor
  · rw [hgr]
    exact List.get_mem g.reps _ hidx2
  · have hget : (clusterSizes g).get
        ⟨(clusterSizes g).indexOf ((clusterSizes g).foldr max 0), hidx⟩ =
        (clusterSizes g).foldr max 0 := List.indexOf_get hidx
    have hmapget : (clusterSizes g).get
        ⟨(clusterSizes g).indexOf ((clusterSizes g).foldr max 0), hidx⟩ =
        compSize g (g.reps.get
          ⟨(clusterSizes g).indexOf ((clusterSizes g).foldr max 0), hidx2⟩) :=
      List.get_map (compSize g)
    rw [hgr, ← hmapget, hget]

theorem giantVerts_lt {g : Graph} {v : Nat} (h : v ∈ giantVerts g) :
    v < g.names.length :=
  (mem_compClass.mp h).1

theorem giant_names_nodup {g : Graph} (hnd : g.names.Nodup) :
    (Graph.giant g).names.Nodup := by
  have hvnd : (giantVerts g).Nodup :=
    (List.nodup_range g.names.length).filter _
  apply List.Nodup.map_on ?_ hvnd
  intro x hx y hy hxy
  have hxl := giantVerts_lt hx
  have hyl := giantVerts_lt hy
  rw [List.getD_eq_get g.names "" hxl, List.getD_eq_get g.names "" hyl] at hxy
  have hfin := (List.Nodup.get_inj_iff hnd).mp hxy
  exact Fin.val_eq_of_eq hfin

/-- C2. Largest-component extraction: the vertex set that `giant()`
extracts is exactly one reachability class (the cluster of `giantRep`,
one of the component representatives), its vertex count is at least that
of every other connected component, the extracted graph is the
vertex-induced subgraph on that class, and the fresh identifier map built
from the extracted graph is a bijection onto `{0 .. |LCC|-1}`. -/
theorem lcc_extraction (g : Graph) (hv : EdgesValid g) (hnd : g.names.Nodup)
    (hne : g.names ≠ []) :
    giantRep g ∈ g.reps ∧
      (∀ j, j ∈ giantVerts g ↔
        j < g.names.length ∧ Reach g (giantRep g) j) ∧
      Graph.giant g = induced g (giantVerts g) ∧
      (Graph.giant g).names.length = compSize g (giantRep g) ∧
      (∀ r ∈ g.reps, compSize g r ≤ compSize g (giantRep g)) ∧
      IdmapBijective (Graph.giant g) := by
  obtain ⟨hgmem, hgmax⟩ := giantRep_spec hne
  obtain ⟨hglt, hgfix⟩ := mem_reps.mp hgmem
  refine ⟨hgmem, ?_, rfl, ?_, ?_, idmap_bij_aux _ (giant_names_nodup hnd)⟩
  · intro j
    rw [giantVerts, mem_compClass]
    constructor
    · rintro ⟨hj, hrep⟩
      refine ⟨hj, ?_⟩
      have h1 : Reach g j (g.rep j) := reach_rep hj
      rw [hrep] at h1
      exact reach_symm h1
    · rintro ⟨hj, hreach⟩
      refine ⟨hj, ?_⟩
      have h1 := rep_congr hv hglt hj hreach
      rw [← h1, hgfix]
  · rw [Graph.giant, induced, List.length_map]
    rfl
  · intro r hr
    have h1 : compSize g r ∈ clusterSizes g := by
      rw [clusterSizes]
      exact List.mem_map_of_mem (compSize g) hr
    rw [hgmax]
    exact le_foldr_max h1

/-- Witness for C2: a graph with components of sizes 5, 2 and 1 (a path
on vertices 0–4, an edge 5–6, and the isolated vertex 7); the extracted
component has exactly 5 vertices and its fresh identifier map is a
bijection onto the dense index range. -/
theorem lcc_extraction_witness :
    EdgesValid (Graph.mk ["v0", "v1", "v2", "v3", "v4", "v5", "v6", "v7"]
      [(0, 1), (1, 2), (2, 3), (3, 4), (5, 6)]) ∧
      (Graph.giant (Graph.mk ["v0", "v1", "v2", "v3", "v4", "v5", "v6", "v7"]
        [(0, 1), (1, 2), (2, 3), (3, 4), (5, 6)])).names.length = 5 ∧
      IdmapBijective (Graph.giant
        (Graph.mk ["v0", "v1", "v2", "v3", "v4", "v5", "v6", "v7"]
          [(0, 1), (1, 2), (2, 3), (3, 4), (5, 6)])) := by
  have hv : EdgesValid (Graph.mk ["v0", "v1", "v2", "v3", "v4", "v5", "v6", "v7"]
      [(0, 1), (1, 2), (2, 3), (3, 4), (5, 6)]) := by decide
  have h := lcc_extraction
    (Graph.mk ["v0", "v1", "v2", "v3", "v4", "v5", "v6", "v7"]
      [(0, 1), (1, 2), (2, 3), (3, 4), (5, 6)]) hv (by decide) (by decide)
  refine ⟨hv, ?_, h.2.2.2.2.2⟩
  rw [h.2.2.2.1]
  decide

end Aminer
